import Mathlib

/-! Verification of the Knowledge Retrieval Engine of the centro repository
    (`src/services/vector_store.py`, class `VectorStoreService`).

    The Python class is shallowly embedded: its three pieces of mutable state
    (the remote vector index reached through the Pinecone adapter, the keyword
    fallback cache and the tracked per-group vector-id sets) form an explicit
    `EngineState`, and each public method becomes a pure function from a state
    to a new state and a return value.  External collaborators enter as
    explicit parameters:

    * the text splitter (`langchain`'s `RecursiveCharacterTextSplitter`) as a
      function `splitText : String → List String`;
    * the fresh UUID stream of an upsert call as `freshIds : Nat → String`;
    * the wall-clock timestamp as a `timestamp : String`;
    * the embedder and the cosine similarity of the adapter query as a score
      function `sim : String → ℚ` from a stored record id to the similarity
      of that record's vector with the query embedding (embeddings are
      deterministic, so within one query the score is a function of the
      stored record); floats are modelled as rationals.

    Records additionally carry a ghost field `owner`: the `person_id` argument
    of the `upsert_documents` call that created them.  The Python dicts hold no
    such field; it exists only to state cross-person provenance properties. -/

namespace VectorStore

/-! ## Python string primitives -/

/-- Model of Python `str.lower()`: character-wise lowercasing. -/
def pyLower (s : String) : String := String.mk (s.toList.map Char.toLower)

/-- Model of Python `str.strip()`: drop leading and trailing whitespace. -/
def pyStrip (s : String) : String :=
  String.mk (((s.toList.dropWhile Char.isWhitespace).reverse.dropWhile
    Char.isWhitespace).reverse)

/-- Whether the first character list is an initial segment of the second. -/
def leadsWith : List Char → List Char → Bool
  | [], _ => true
  | _ :: _, [] => false
  | a :: as, b :: bs => a == b && leadsWith as bs

/-- Whether `needle` occurs as a contiguous sublist of `haystack`. -/
def containsSub (needle : List Char) : List Char → Bool
  | [] => needle.isEmpty
  | c :: rest => leadsWith needle (c :: rest) || containsSub needle rest

/-- Model of Python `needle in haystack` on strings (substring containment). -/
def pyIn (needle haystack : String) : Bool :=
  containsSub needle.toList haystack.toList

/-- Model of Python `str.split()` with no separator: split on whitespace runs,
    dropping empty pieces. -/
def pyWords (s : String) : List String :=
  ((s.toList.splitOnP Char.isWhitespace).map String.mk).filter (fun w => w ≠ "")

/-! ## Metadata dictionaries

    The metadata dicts of the vector store hold strings and one integer (the
    1-based `chunk_index`).  A dict is an insertion-ordered association list;
    `dictSet` keeps keys unique the way Python assignment does. -/

/-- A metadata value. -/
inductive MVal where
  | s (v : String)
  | n (v : Nat)
deriving DecidableEq, Repr

/-- Python `str(v)` on a metadata value. -/
def MVal.str : MVal → String
  | .s v => v
  | .n v => toString v

/-- A Python dict with string keys, as an insertion-ordered association list. -/
abbrev Meta := List (String × MVal)

/-- Association-list lookup, Python `d.get(k)`. -/
def lookupA {α β : Type} [DecidableEq α] (l : List (α × β)) (k : α) : Option β :=
  (l.find? (fun kv => decide (kv.1 = k))).map Prod.snd

/-- Association-list assignment, Python `d[k] = v`: replace in place when the
    key is present (a Python dict keeps the key's original position; keys are
    unique, so replacing the first occurrence is replacing the only one), else
    append. -/
def setA {α β : Type} [DecidableEq α] : List (α × β) → α → β → List (α × β)
  | [], k, v => [(k, v)]
  | kv :: rest, k, v =>
      if kv.1 = k then (k, v) :: rest else kv :: setA rest k v

/-- Association-list key removal, Python `d.pop(k, None)`. -/
def popA {α β : Type} [DecidableEq α] (l : List (α × β)) (k : α) :
    List (α × β) :=
  l.filter (fun kv => decide (kv.1 ≠ k))

/-- Metadata lookup. -/
def dictGet? (d : Meta) (k : String) : Option MVal := lookupA d k

/-- Python `{**base, **extra}` for an already-built `base`: the entries of
    `extra` are written over `base` in order, so on a key collision the
    `extra` entry wins. -/
def mergeMeta (base extra : Meta) : Meta :=
  extra.foldl (fun d kv => setA d kv.1 kv.2) base

/-- The reserved metadata keys and the provenance tags used by the engine. -/
def kPersonId : String := "person_id"

def kSource : String := "source"

def kChunkIndex : String := "chunk_index"

def kText : String := "text"

def kCreatedAt : String := "created_at"

def modeVector : String := "vector"

def modeKeywordFallback : String := "keyword_fallback"

/-! ## Records and engine state -/

/-- One entry of the keyword fallback cache: the dict
    `{"id": ..., "source": item["metadata"]["source"],
    "text": item["metadata"]["text"], "metadata": ...}` built in
    `upsert_documents`.  `owner` is the ghost provenance field. -/
structure CacheEntry where
  id : String
  source : MVal
  text : MVal
  metadata : Meta
  owner : String
deriving DecidableEq, Repr

/-- One record stored in the vector index (id, metadata; the embedding vector
    itself influences nothing observed here and is carried by `sim` at query
    time).  `owner` is the ghost provenance field. -/
structure IndexRecord where
  id : String
  metadata : Meta
  owner : String
deriving DecidableEq, Repr

/-- One match returned by the adapter query. -/
structure QueryMatch where
  id : String
  score : ℚ
  metadata : Meta
  owner : String
deriving DecidableEq, Repr

/-- One result dict returned by `search` or `_keyword_search`. -/
structure SearchResult where
  id : String
  score : ℚ
  text : String
  source : Option MVal
  metadata : Meta
  retrieval_mode : String
  owner : String
deriving DecidableEq, Repr

/-- The mutable state of a `VectorStoreService` instance: the adapter-side
    index contents, `self._keyword_cache` and `self._source_vector_ids`. -/
structure EngineState where
  indexRecords : List IndexRecord
  keywordCache : List (String × List CacheEntry)
  sourceVectorIds : List ((String × String) × List String)
deriving DecidableEq, Repr

/-- The state right after construction: empty index, empty caches. -/
def emptyState : EngineState :=
  { indexRecords := [], keywordCache := [], sourceVectorIds := [] }

/-- Python `self._keyword_cache.get(person_id, [])`. -/
def cacheGet (c : List (String × List CacheEntry)) (p : String) :
    List CacheEntry :=
  (lookupA c p).getD []

/-- Python `self._source_vector_ids.get(key, set())`, as a duplicate-free
    list. -/
def svGet (m : List ((String × String) × List String)) (k : String × String) :
    List String :=
  (lookupA m k).getD []

/-- Python `set.update`: add every id not already present. -/
def setAdd (s : List String) (new : List String) : List String :=
  new.foldl (fun acc i => if i ∈ acc then acc else acc ++ [i]) s

/-! ## Sorting

    Python `list.sort(key=..., reverse=True)` is the stable descending sort by
    the key; `List.insertionSort` by the descending-key relation is exactly
    that stable sort. -/

/-- Descending comparison by a rational key. -/
def keyDesc {α : Type} (key : α → ℚ) (a b : α) : Prop := key b ≤ key a

instance {α : Type} (key : α → ℚ) : DecidableRel (keyDesc key) :=
  fun a b => inferInstanceAs (Decidable (key b ≤ key a))

instance {α : Type} (key : α → ℚ) : IsTotal α (keyDesc key) :=
  ⟨fun a b => le_total (key b) (key a)⟩

instance {α : Type} (key : α → ℚ) : IsTrans α (keyDesc key) :=
  ⟨fun _ _ _ hab hbc => le_trans hbc hab⟩

/-- Python `l.sort(key=key, reverse=True)`. -/
def sortDesc {α : Type} (key : α → ℚ) (l : List α) : List α :=
  List.insertionSort (keyDesc key) l

/-! ## The chunker and `upsert_documents` -/

/-- `VectorStoreService._split_documents`: skip empty and whitespace-only
    documents; split the rest with the external splitter, strip each chunk and
    drop the empty ones, concatenating across documents. -/
def split_documents (splitText : String → List String) :
    List String → List String
  | [] => []
  | doc :: rest =>
      (if pyStrip doc = "" then []
       else (splitText doc).filterMap (fun c =>
         if pyStrip c = "" then none else some (pyStrip c)))
      ++ split_documents splitText rest

/-- Python `enumerate(..., start=1)`. -/
def enum1 {α : Type} (l : List α) : List (Nat × α) :=
  l.enum.map (fun p => (p.1 + 1, p.2))

/-- The reserved metadata fields the engine computes for one chunk. -/
def reservedMeta (personId source chunk timestamp : String) (index : Nat) :
    Meta :=
  [(kPersonId, .s personId), (kSource, .s source), (kChunkIndex, .n index),
   (kText, .s chunk), (kCreatedAt, .s timestamp)]

/-- The stored metadata of one chunk: the dict literal of `upsert_documents`.
    Its final entry `**metadata` writes the caller's `extra_metadata` over the
    reserved fields, so the caller wins every key collision. -/
def chunkMetadata (personId source chunk timestamp : String) (index : Nat)
    (extra : Meta) : Meta :=
  mergeMeta (reservedMeta personId source chunk timestamp index) extra

/-- The `payload` of `upsert_documents`: one `(vector id, metadata)` pair per
    chunk, the chunk at 1-based position `i` receiving the fresh id
    `freshIds i`. -/
def upsertPayload (personId source : String) (chunks : List String)
    (timestamp : String) (extra : Meta) (freshIds : Nat → String) :
    List (String × Meta) :=
  (enum1 chunks).map (fun p =>
    (freshIds p.1, chunkMetadata personId source p.2 timestamp p.1 extra))

/-- The cache entry mirrored from one payload item.  The source reads
    `item["metadata"]["source"]` and `item["metadata"]["text"]`; both keys are
    always present in a chunk's metadata (the reserved dict binds them and
    merging never removes a key), so the `getD` defaults are unreachable. -/
def mkCacheEntry (personId : String) (idmd : String × Meta) : CacheEntry :=
  { id := idmd.1,
    source := (dictGet? idmd.2 kSource).getD (.s ""),
    text := (dictGet? idmd.2 kText).getD (.s ""),
    metadata := idmd.2,
    owner := personId }

/-- Adapter upsert (`self._index.upsert`): re-upserting an existing id
    overwrites that record in place, a new id is appended. -/
def indexUpsert (records : List IndexRecord) :
    List IndexRecord → List IndexRecord
  | [] => records
  | r :: rest =>
      indexUpsert
        (if records.any (fun x => decide (x.id = r.id)) then
          records.map (fun x => if x.id = r.id then r else x)
        else records ++ [r]) rest

/-- `VectorStoreService.upsert_documents`: chunk, build per-chunk metadata,
    upsert into the index, track the new ids for the `(person_id, source)`
    group and mirror the chunks into the keyword cache.  Returns the new state
    and the number of indexed chunks; when chunking yields no chunks the state
    is returned untouched with count 0. -/
def upsert_documents (st : EngineState) (personId : String)
    (documents : List String) (source : String) (extra : Meta)
    (splitText : String → List String) (freshIds : Nat → String)
    (timestamp : String) : EngineState × Nat :=
  let chunks := split_documents splitText documents
  if chunks = [] then (st, 0)
  else
    let payload := upsertPayload personId source chunks timestamp extra freshIds
    let key := (personId, source)
    ({ indexRecords := indexUpsert st.indexRecords
        (payload.map (fun idmd =>
          { id := idmd.1, metadata := idmd.2, owner := personId })),
       keywordCache := setA st.keywordCache personId
        (cacheGet st.keywordCache personId ++ payload.map (mkCacheEntry personId)),
       sourceVectorIds := setA st.sourceVectorIds key
        (setAdd (svGet st.sourceVectorIds key) (payload.map Prod.fst)) },
     payload.length)

/-! ## `delete_by_source` and `replace_source_documents` -/

/-- `VectorStoreService.delete_by_source`.  The adapter-side delete removes
    every record whose stored metadata matches the person/source equality
    filter (the `TypeError` branch of the source covers adapters without
    filter support and deletes the same tracked ids explicitly).  The tracked
    id set of the group is popped, and, when the person has a cache list, the
    entries whose cached source equals `source` are purged from it.  Returns
    the new state and `max` of the two independently observed counts. -/
def delete_by_source (st : EngineState) (personId source : String) :
    EngineState × Nat :=
  let key := (personId, source)
  let existingIds := svGet st.sourceVectorIds key
  let idx := st.indexRecords.filter (fun r =>
    decide (¬ (dictGet? r.metadata kPersonId = some (.s personId) ∧
               dictGet? r.metadata kSource = some (.s source))))
  let sv := popA st.sourceVectorIds key
  match lookupA st.keywordCache personId with
  | none =>
      ({ indexRecords := idx, keywordCache := st.keywordCache,
         sourceVectorIds := sv }, existingIds.length)
  | some entries =>
      let kept := entries.filter (fun e => decide (e.source ≠ MVal.s source))
      ({ indexRecords := idx,
         keywordCache := setA st.keywordCache personId kept,
         sourceVectorIds := sv },
       max existingIds.length (entries.length - kept.length))

/-- `VectorStoreService.replace_source_documents`: delete the group, then
    upsert the new documents, non-atomically. -/
def replace_source_documents (st : EngineState) (personId source : String)
    (documents : List String) (extra : Meta)
    (splitText : String → List String) (freshIds : Nat → String)
    (timestamp : String) : EngineState × Nat × Nat :=
  let d := delete_by_source st personId source
  let u := upsert_documents d.1 personId documents source extra splitText
    freshIds timestamp
  (u.1, d.2, u.2)

/-! ## `_keyword_search` -/

/-- The token set of a query: Python
    `{token for token in query.lower().split() if token}`, as a duplicate-free
    list (only its length and membership are ever used). -/
def queryTokens (query : String) : List String :=
  (pyWords (pyLower query)).dedup

/-- The number of query tokens occurring as substrings of the (already
    lowercased) chunk text. -/
def overlapCount (tokens : List String) (text : String) : Nat :=
  tokens.countP (fun t => pyIn t text)

/-- The `scored` list of `_keyword_search`: entries with empty text or zero
    token overlap are skipped, the rest paired with the score
    `overlap / len(tokens)`. -/
def scoredEntries (tokens : List String) (entries : List CacheEntry) :
    List (ℚ × CacheEntry) :=
  entries.filterMap (fun e =>
    if pyLower (MVal.str e.text) = "" then none
    else if overlapCount tokens (pyLower (MVal.str e.text)) = 0 then none
    else some (((overlapCount tokens (pyLower (MVal.str e.text)) : ℚ)
      / (tokens.length : ℚ), e)))

/-- The result dict built from one scored cache entry. -/
def mkKeywordResult (se : ℚ × CacheEntry) : SearchResult :=
  { id := se.2.id, score := se.1, text := MVal.str se.2.text,
    source := some se.2.source, metadata := se.2.metadata,
    retrieval_mode := modeKeywordFallback, owner := se.2.owner }

/-- `VectorStoreService._keyword_search`: lexical fallback over the person's
    cached chunks; empty token set short-circuits to the empty list. -/
def keyword_search (st : EngineState) (personId query : String) (topK : Nat) :
    List SearchResult :=
  let tokens := queryTokens query
  if tokens = [] then []
  else
    ((sortDesc Prod.fst
        (scoredEntries tokens (cacheGet st.keywordCache personId))).take
      topK).map mkKeywordResult

/-! ## `search` -/

/-- Python `str(metadata.get("text", ""))`. -/
def metaText (md : Meta) : String :=
  ((dictGet? md kText).map MVal.str).getD ""

/-- The result dict built from one adapter match on the vector path. -/
def mkVectorResult (m : QueryMatch) : SearchResult :=
  { id := m.id, score := m.score, text := metaText m.metadata,
    source := dictGet? m.metadata kSource, metadata := m.metadata,
    retrieval_mode := modeVector, owner := m.owner }

/-- Model of the adapter query (`self._index.query` with
    `filter={"person_id": {"$eq": person_id}}`): the records whose stored
    `person_id` metadata equals the filtered person, scored by `sim`, in
    descending score order, truncated to `top_k`.  The adapter contract leaves
    tie order unspecified; the stable descending order is one admissible
    choice. -/
def indexQuery (records : List IndexRecord) (personId : String) (topK : Nat)
    (sim : String → ℚ) : List QueryMatch :=
  (sortDesc QueryMatch.score
    ((records.filter (fun r =>
        decide (dictGet? r.metadata kPersonId = some (.s personId)))).map
      (fun r => { id := r.id, score := sim r.id, metadata := r.metadata,
                  owner := r.owner }))).take topK

/-- The vector-path result list of `search`: matches whose score is strictly
    below `min_score` are skipped, the rest converted in order. -/
def vectorResults (ms : List QueryMatch) (minScore : ℚ) :
    List SearchResult :=
  ms.filterMap (fun m =>
    if m.score < minScore then none else some (mkVectorResult m))

/-- `VectorStoreService.search`: query the adapter filtered by person, drop
    matches below `min_score`; when anything survives, return it sorted
    descending by score and truncated to `top_k`, otherwise fall back to
    `_keyword_search` when enabled, else return the empty list. -/
def search (st : EngineState) (personId query : String) (topK : Nat)
    (minScore : ℚ) (enableHybridFallback : Bool) (sim : String → ℚ) :
    List SearchResult :=
  let results := vectorResults (indexQuery st.indexRecords personId topK sim)
    minScore
  if results ≠ [] then (sortDesc SearchResult.score results).take topK
  else if enableHybridFallback then keyword_search st personId query topK
  else []

/-! ## Provenance invariants -/

/-- Every index record's stored `person_id` metadata names the person whose
    upsert created it.  Violated exactly when a caller overrides `person_id`
    through `extra_metadata`. -/
def indexOwnersOk (st : EngineState) : Prop :=
  ∀ r ∈ st.indexRecords, dictGet? r.metadata kPersonId = some (.s r.owner)

/-- Every cache entry sits under the cache key of the person whose upsert
    created it. -/
def cacheOwnersOk (st : EngineState) : Prop :=
  ∀ pe ∈ st.keywordCache, ∀ e ∈ pe.2, e.owner = pe.1

/-- Both provenance invariants. -/
def ownersOk (st : EngineState) : Prop := indexOwnersOk st ∧ cacheOwnersOk st

instance (st : EngineState) : Decidable (indexOwnersOk st) :=
  inferInstanceAs (Decidable (∀ r ∈ st.indexRecords,
    dictGet? r.metadata kPersonId = some (.s r.owner)))

instance (st : EngineState) : Decidable (cacheOwnersOk st) :=
  inferInstanceAs (Decidable (∀ pe ∈ st.keywordCache, ∀ e ∈ pe.2,
    e.owner = pe.1))

instance (st : EngineState) : Decidable (ownersOk st) :=
  inferInstanceAs (Decidable (_ ∧ _))

/-! ## Association-list laws -/

theorem lookupA_nil {α β : Type} [DecidableEq α] (k : α) :
    lookupA ([] : List (α × β)) k = none := rfl

theorem lookupA_cons {α β : Type} [DecidableEq α] (k₁ : α) (v₁ : β)
    (l : List (α × β)) (k : α) :
    lookupA ((k₁, v₁) :: l) k = if k₁ = k then some v₁ else lookupA l k := by
  by_cases h : k₁ = k <;> simp [lookupA, List.find?_cons, h]

theorem lookupA_setA_self {α β : Type} [DecidableEq α] (l : List (α × β))
    (k : α) (v : β) : lookupA (setA l k v) k = some v := by
  induction l with
  | nil => simp [setA, lookupA_cons]
  | cons kv rest ih =>
      cases kv with
      | mk a b =>
          by_cases hk : a = k
          · simp [setA, hk, lookupA_cons]
          · simp only [setA, hk, if_false]
            rw [lookupA_cons]
            simp [hk, ih]

theorem lookupA_setA_ne {α β : Type} [DecidableEq α] (l : List (α × β))
    (k k' : α) (v : β) (h : k' ≠ k) :
    lookupA (setA l k v) k' = lookupA l k' := by
  induction l with
  | nil => simp [setA, lookupA_cons, lookupA_nil, Ne.symm h]
  | cons kv rest ih =>
      cases kv with
      | mk a b =>
          by_cases hk : a = k
          · simp only [setA, hk, if_true]
            rw [lookupA_cons, lookupA_cons]
            simp [Ne.symm h, hk]
          · simp only [setA, hk, if_false]
            rw [lookupA_cons, lookupA_cons]
            by_cases hk' : a = k' <;> simp [hk', ih]

theorem lookupA_popA_self {α β : Type} [DecidableEq α] (l : List (α × β))
    (k : α) : lookupA (popA l k) k = none := by
  induction l with
  | nil => rfl
  | cons kv rest ih =>
      cases kv with
      | mk a b =>
          by_cases hk : a = k
          · simpa [popA, List.filter_cons, hk] using ih
          · have h1 : popA ((a, b) :: rest) k = (a, b) :: popA rest k := by
              simp [popA, List.filter_cons, hk]
            rw [h1, lookupA_cons]
            simp [hk, ih]

theorem lookupA_popA_ne {α β : Type} [DecidableEq α] (l : List (α × β))
    (k k' : α) (h : k' ≠ k) : lookupA (popA l k) k' = lookupA l k' := by
  induction l with
  | nil => rfl
  | cons kv rest ih =>
      cases kv with
      | mk a b =>
          by_cases hk : a = k
          · have h1 : popA ((a, b) :: rest) k = popA rest k := by
              simp [popA, List.filter_cons, hk]
            have hk' : ¬ a = k' := fun e => h (e.symm.trans hk)
            rw [h1, lookupA_cons]
            simp [hk', ih]
          · have h1 : popA ((a, b) :: rest) k = (a, b) :: popA rest k := by
              simp [popA, List.filter_cons, hk]
            rw [h1, lookupA_cons, lookupA_cons]
            by_cases hk' : a = k' <;> simp [hk', ih]

theorem mem_setA {α β : Type} [DecidableEq α] {l : List (α × β)} {k : α}
    {v : β} {pe : α × β} (h : pe ∈ setA l k v) : pe = (k, v) ∨ pe ∈ l := by
  induction l with
  | nil => simp [setA] at h; exact Or.inl h
  | cons kv rest ih =>
      by_cases hk : kv.1 = k
      · simp only [setA, hk, if_true, List.mem_cons] at h
        rcases h with h | h
        · exact Or.inl h
        · exact Or.inr (List.mem_cons_of_mem _ h)
      · simp only [setA, hk, if_false, List.mem_cons] at h
        rcases h with h | h
        · exact Or.inr (h ▸ List.mem_cons_self _ _)
        · rcases ih h with h' | h'
          · exact Or.inl h'
          · exact Or.inr (List.mem_cons_of_mem _ h')

theorem lookupA_mem {α β : Type} [DecidableEq α] {l : List (α × β)} {k : α}
    {v : β} (h : lookupA l k = some v) : (k, v) ∈ l := by
  induction l with
  | nil => simp [lookupA_nil] at h
  | cons kv rest ih =>
      cases kv with
      | mk a b =>
          rw [lookupA_cons] at h
          by_cases hk : a = k
          · simp [hk] at h
            exact h ▸ (hk ▸ List.mem_cons_self _ _)
          · simp [hk] at h
            exact List.mem_cons_of_mem _ (ih h)

end VectorStore

namespace VectorStore

/-! ## Dict-merge laws -/

theorem dictGet?_mergeMeta_not_mem (base extra : Meta) (k : String)
    (h : k ∉ extra.map Prod.fst) :
    dictGet? (mergeMeta base extra) k = dictGet? base k := by
  induction extra generalizing base with
  | nil => rfl
  | cons kv rest ih =>
      simp only [List.map_cons, List.mem_cons, not_or] at h
      show dictGet? (mergeMeta (setA base kv.1 kv.2) rest) k = _
      rw [ih _ h.2]
      exact lookupA_setA_ne base kv.1 k kv.2 h.1

theorem dictGet?_mergeMeta_mem (base extra : Meta) (k : String) (v : MVal)
    (hnd : (extra.map Prod.fst).Nodup) (h : dictGet? extra k = some v) :
    dictGet? (mergeMeta base extra) k = some v := by
  induction extra generalizing base with
  | nil => simp [dictGet?, lookupA_nil] at h
  | cons kv rest ih =>
      cases kv with
      | mk a b =>
          simp only [List.map_cons, List.nodup_cons] at hnd
          rw [show dictGet? ((a, b) :: rest) k
              = if a = k then some b else dictGet? rest k from
            lookupA_cons a b rest k] at h
          by_cases hak : a = k
          · rw [if_pos hak] at h
            have hb : b = v := by injection h
            have hknotin : k ∉ rest.map Prod.fst := hak ▸ hnd.1
            show dictGet? (mergeMeta (setA base a b) rest) k = some v
            rw [dictGet?_mergeMeta_not_mem _ _ _ hknotin]
            subst hak hb
            exact lookupA_setA_self base a b
          · rw [if_neg hak] at h
            exact ih (setA base a b) hnd.2 h

/-! ## Reserved-field lookups -/

theorem dictGet?_reservedMeta_personId (p s c t : String) (i : Nat) :
    dictGet? (reservedMeta p s c t i) kPersonId = some (.s p) := rfl

theorem dictGet?_reservedMeta_source (p s c t : String) (i : Nat) :
    dictGet? (reservedMeta p s c t i) kSource = some (.s s) := rfl

theorem dictGet?_reservedMeta_text (p s c t : String) (i : Nat) :
    dictGet? (reservedMeta p s c t i) kText = some (.s c) := rfl

theorem dictGet?_chunkMetadata_of_extra (p s c t : String) (i : Nat)
    (extra : Meta) (k : String) (v : MVal)
    (hnd : (extra.map Prod.fst).Nodup) (h : dictGet? extra k = some v) :
    dictGet? (chunkMetadata p s c t i extra) k = some v :=
  dictGet?_mergeMeta_mem _ _ _ _ hnd h

theorem dictGet?_chunkMetadata_personId (p s c t : String) (i : Nat)
    (extra : Meta) (h : kPersonId ∉ extra.map Prod.fst) :
    dictGet? (chunkMetadata p s c t i extra) kPersonId = some (.s p) := by
  rw [chunkMetadata, dictGet?_mergeMeta_not_mem _ _ _ h]
  exact dictGet?_reservedMeta_personId p s c t i

/-! ## Sorting laws -/

theorem sortDesc_perm {α : Type} (key : α → ℚ) (l : List α) :
    (sortDesc key l).Perm l := List.perm_insertionSort _ _

theorem sortDesc_sorted {α : Type} (key : α → ℚ) (l : List α) :
    List.Sorted (keyDesc key) (sortDesc key l) := List.sorted_insertionSort _ _

theorem mem_sortDesc {α : Type} {key : α → ℚ} {l : List α} {a : α} :
    a ∈ sortDesc key l ↔ a ∈ l := (sortDesc_perm key l).mem_iff

theorem sorted_take_sortDesc {α : Type} (key : α → ℚ) (l : List α) (n : Nat) :
    List.Sorted (keyDesc key) ((sortDesc key l).take n) :=
  List.Pairwise.sublist (List.take_sublist n _) (sortDesc_sorted key l)

theorem length_take_sortDesc_le {α : Type} (key : α → ℚ) (l : List α)
    (n : Nat) : ((sortDesc key l).take n).length ≤ n := by
  rw [List.length_take]
  exact min_le_left _ _

/-! ## Vector-path laws -/

theorem vectorResults_eq_filter (ms : List QueryMatch) (minScore : ℚ) :
    vectorResults ms minScore
      = (ms.filter (fun m => decide (minScore ≤ m.score))).map mkVectorResult := by
  induction ms with
  | nil => rfl
  | cons m rest ih =>
      by_cases h : m.score < minScore
      · simp [vectorResults, List.filter_cons, h, not_le.mpr h] at ih ⊢
        exact ih
      · simp [vectorResults, List.filter_cons, h, not_lt.mp h] at ih ⊢
        exact ih

theorem mem_vectorResults {ms : List QueryMatch} {minScore : ℚ}
    {r : SearchResult} (h : r ∈ vectorResults ms minScore) :
    ∃ m ∈ ms, minScore ≤ m.score ∧ r = mkVectorResult m := by
  rw [vectorResults_eq_filter] at h
  rcases List.mem_map.mp h with ⟨m, hm, rfl⟩
  rcases List.mem_filter.mp hm with ⟨hmem, hsc⟩
  exact ⟨m, hmem, by simpa using hsc, rfl⟩

theorem mem_indexQuery {records : List IndexRecord} {p : String} {k : Nat}
    {sim : String → ℚ} {m : QueryMatch} (h : m ∈ indexQuery records p k sim) :
    ∃ rec ∈ records, m.metadata = rec.metadata ∧ m.owner = rec.owner ∧
      dictGet? rec.metadata kPersonId = some (.s p) := by
  unfold indexQuery at h
  have h2 := mem_sortDesc.mp (List.take_subset _ _ h)
  rcases List.mem_map.mp h2 with ⟨rec, hrec, rfl⟩
  rcases List.mem_filter.mp hrec with ⟨hmem, hp⟩
  exact ⟨rec, hmem, rfl, rfl, by simpa using hp⟩

end VectorStore

namespace VectorStore

/-! ## Keyword-path laws -/

theorem mem_queryTokens_ne_empty {q t : String} (h : t ∈ queryTokens q) :
    t ≠ "" := by
  unfold queryTokens at h
  have h1 := List.mem_dedup.mp h
  unfold pyWords at h1
  have h2 := (List.mem_filter.mp h1).2
  simpa using h2

theorem pyIn_empty_right {t : String} (h : t ≠ "") : pyIn t "" = false := by
  unfold pyIn containsSub
  cases ht : t.toList with
  | nil =>
      exfalso
      exact h (String.ext (by simpa [String.toList] using ht))
  | cons c cs => simp [ht]

theorem overlapCount_empty_right {tokens : List String}
    (h : ∀ t ∈ tokens, t ≠ "") : overlapCount tokens "" = 0 := by
  unfold overlapCount
  rw [List.countP_eq_zero]
  intro t ht
  simp [pyIn_empty_right (h t ht)]

theorem scoredEntries_queryTokens_eq (q : String) (entries : List CacheEntry) :
    scoredEntries (queryTokens q) entries
      = (entries.filter (fun e =>
          decide (0 < overlapCount (queryTokens q)
            (pyLower (MVal.str e.text))))).map
          (fun e => ((overlapCount (queryTokens q)
              (pyLower (MVal.str e.text)) : ℚ)
            / ((queryTokens q).length : ℚ), e)) := by
  induction entries with
  | nil => rfl
  | cons e rest ih =>
      simp only [scoredEntries] at ih
      simp only [scoredEntries, List.filterMap_cons, List.filter_cons]
      by_cases h1 : pyLower (MVal.str e.text) = ""
      · have h0 : overlapCount (queryTokens q) "" = 0 :=
          overlapCount_empty_right (fun t ht => mem_queryTokens_ne_empty ht)
        simp [h1, h0, ih]
      · by_cases h2 : overlapCount (queryTokens q) (pyLower (MVal.str e.text)) = 0
        · simp [h1, h2, ih]
        · simp [h1, h2, Nat.pos_of_ne_zero h2, ih]

theorem mem_scoredEntries {tokens : List String} {entries : List CacheEntry}
    {se : ℚ × CacheEntry} (h : se ∈ scoredEntries tokens entries) :
    se.2 ∈ entries ∧
    overlapCount tokens (pyLower (MVal.str se.2.text)) ≠ 0 ∧
    se.1 = (overlapCount tokens (pyLower (MVal.str se.2.text)) : ℚ)
      / (tokens.length : ℚ) := by
  unfold scoredEntries at h
  rcases List.mem_filterMap.mp h with ⟨e, he, hf⟩
  by_cases h1 : pyLower (MVal.str e.text) = ""
  · simp [h1] at hf
  · by_cases h2 : overlapCount tokens (pyLower (MVal.str e.text)) = 0
    · simp [h1, h2] at hf
    · simp only [h1, if_false, h2, if_neg, Option.some_inj] at hf
      subst hf
      exact ⟨he, h2, rfl⟩

theorem mem_keyword_search {st : EngineState} {p q : String} {k : Nat}
    {r : SearchResult} (h : r ∈ keyword_search st p q k) :
    ∃ se ∈ scoredEntries (queryTokens q) (cacheGet st.keywordCache p),
      r = mkKeywordResult se := by
  unfold keyword_search at h
  by_cases ht : queryTokens q = []
  · simp [ht] at h
  · simp only [ht, if_false] at h
    rcases List.mem_map.mp h with ⟨se, hse, rfl⟩
    exact ⟨se, mem_sortDesc.mp (List.take_subset _ _ hse), rfl⟩

/-! ## Search branching -/

theorem search_eq_of_vector_ne_nil {st : EngineState} {p q : String} {k : Nat}
    {minScore : ℚ} {fb : Bool} {sim : String → ℚ}
    (h : vectorResults (indexQuery st.indexRecords p k sim) minScore ≠ []) :
    search st p q k minScore fb sim
      = (sortDesc SearchResult.score
          (vectorResults (indexQuery st.indexRecords p k sim) minScore)).take
        k := by
  simp [search, h]

theorem search_eq_fallback {st : EngineState} {p q : String} {k : Nat}
    {minScore : ℚ} {sim : String → ℚ}
    (h : vectorResults (indexQuery st.indexRecords p k sim) minScore = []) :
    search st p q k minScore true sim = keyword_search st p q k := by
  simp [search, h]

theorem search_eq_nil {st : EngineState} {p q : String} {k : Nat}
    {minScore : ℚ} {sim : String → ℚ}
    (h : vectorResults (indexQuery st.indexRecords p k sim) minScore = []) :
    search st p q k minScore false sim = [] := by
  simp [search, h]

end VectorStore

namespace VectorStore

/-! ## Upsert laws -/

theorem upsertPayload_nil (p src ts : String) (extra : Meta)
    (ids : Nat → String) : upsertPayload p src [] ts extra ids = [] := rfl

theorem mem_upsertPayload {p src : String} {chunks : List String}
    {ts : String} {extra : Meta} {ids : Nat → String} {idmd : String × Meta}
    (h : idmd ∈ upsertPayload p src chunks ts extra ids) :
    ∃ i chunk, idmd = (ids i, chunkMetadata p src chunk ts i extra) := by
  unfold upsertPayload at h
  rcases List.mem_map.mp h with ⟨pr, _, rfl⟩
  exact ⟨pr.1, pr.2, rfl⟩

theorem mem_indexUpsert {old new : List IndexRecord} {x : IndexRecord}
    (h : x ∈ indexUpsert old new) : x ∈ old ∨ x ∈ new := by
  induction new generalizing old with
  | nil => exact Or.inl h
  | cons r rest ih =>
      simp only [indexUpsert] at h
      rcases ih h with h' | h'
      · by_cases hany : old.any (fun y => decide (y.id = r.id)) = true
        · rw [if_pos hany] at h'
          rcases List.mem_map.mp h' with ⟨y, hy, hf⟩
          by_cases hid : y.id = r.id
          · rw [if_pos hid] at hf
            exact Or.inr (hf ▸ List.mem_cons_self _ _)
          · rw [if_neg hid] at hf
            exact Or.inl (hf ▸ hy)
        · rw [if_neg hany] at h'
          rcases List.mem_append.mp h' with h'' | h''
          · exact Or.inl h''
          · simp only [List.mem_singleton] at h''
            exact Or.inr (h'' ▸ List.mem_cons_self _ _)
      · exact Or.inr (List.mem_cons_of_mem _ h')

theorem upsert_unchanged_of_no_chunks {st : EngineState} {p : String}
    {docs : List String} {src : String} {extra : Meta}
    {sp : String → List String} {ids : Nat → String} {ts : String}
    (h : split_documents sp docs = []) :
    upsert_documents st p docs src extra sp ids ts = (st, 0) := by
  simp [upsert_documents, h]

theorem upsert_cacheGet_self (st : EngineState) (p : String)
    (docs : List String) (src : String) (extra : Meta)
    (sp : String → List String) (ids : Nat → String) (ts : String) :
    cacheGet (upsert_documents st p docs src extra sp ids ts).1.keywordCache p
      = cacheGet st.keywordCache p
        ++ (upsertPayload p src (split_documents sp docs) ts extra ids).map
            (mkCacheEntry p) := by
  by_cases h : split_documents sp docs = []
  · simp [upsert_unchanged_of_no_chunks h, h, upsertPayload_nil]
  · simp only [upsert_documents, h, if_false]
    simp [cacheGet, lookupA_setA_self]

/-! ## Delete laws -/

theorem length_sub_filter_not {γ : Type} (P : γ → Prop) [DecidablePred P]
    (l : List γ) :
    l.length - (l.filter (fun x => decide (¬ P x))).length
      = l.countP (fun x => decide (P x)) := by
  induction l with
  | nil => rfl
  | cons x rest ih =>
      simp only [decide_not] at ih ⊢
      have hle := List.length_filter_le (fun a => !decide (P a)) rest
      by_cases h : P x <;>
        simp [List.filter_cons, List.countP_cons, h] <;> omega

theorem delete_count_eq (st : EngineState) (p s : String) :
    (delete_by_source st p s).2
      = max (svGet st.sourceVectorIds (p, s)).length
          ((cacheGet st.keywordCache p).countP
            (fun e => decide (e.source = MVal.s s))) := by
  unfold delete_by_source
  cases hc : lookupA st.keywordCache p with
  | none => simp [hc, cacheGet]
  | some entries =>
      simp only [hc, cacheGet, Option.getD_some]
      rw [show (entries.filter (fun e => decide (e.source ≠ MVal.s s)))
          = (entries.filter (fun e => decide (¬ e.source = MVal.s s))) from rfl]
      rw [length_sub_filter_not (fun e => e.source = MVal.s s) entries]

theorem delete_cacheGet_self (st : EngineState) (p s : String) :
    cacheGet (delete_by_source st p s).1.keywordCache p
      = (cacheGet st.keywordCache p).filter
          (fun e => decide (e.source ≠ MVal.s s)) := by
  unfold delete_by_source
  cases hc : lookupA st.keywordCache p with
  | none => simp [hc, cacheGet]
  | some entries => simp [hc, cacheGet, lookupA_setA_self]

theorem delete_cache_frame (st : EngineState) (p s p' : String) (h : p' ≠ p) :
    lookupA (delete_by_source st p s).1.keywordCache p'
      = lookupA st.keywordCache p' := by
  unfold delete_by_source
  cases hc : lookupA st.keywordCache p with
  | none => simp [hc]
  | some entries => simp [hc, lookupA_setA_ne _ _ _ _ h]

theorem delete_sv_self (st : EngineState) (p s : String) :
    lookupA (delete_by_source st p s).1.sourceVectorIds (p, s) = none := by
  unfold delete_by_source
  cases hc : lookupA st.keywordCache p <;> simp [hc, lookupA_popA_self]

theorem delete_sv_frame (st : EngineState) (p s : String)
    (key : String × String) (h : key ≠ (p, s)) :
    lookupA (delete_by_source st p s).1.sourceVectorIds key
      = lookupA st.sourceVectorIds key := by
  unfold delete_by_source
  cases hc : lookupA st.keywordCache p <;> simp [hc, lookupA_popA_ne _ _ _ h]

theorem delete_index_eq (st : EngineState) (p s : String) :
    (delete_by_source st p s).1.indexRecords
      = st.indexRecords.filter (fun r =>
          decide (¬ (dictGet? r.metadata kPersonId = some (.s p) ∧
                     dictGet? r.metadata kSource = some (.s s)))) := by
  unfold delete_by_source
  cases hc : lookupA st.keywordCache p <;> simp [hc]

/-! ## Provenance preservation -/

theorem ownersOk_empty : ownersOk emptyState := by
  constructor <;> intro x hx <;> simp [emptyState] at hx

theorem ownersOk_upsert {st : EngineState} (hok : ownersOk st) (p : String)
    (docs : List String) (src : String) (extra : Meta)
    (sp : String → List String) (ids : Nat → String) (ts : String)
    (hextra : kPersonId ∉ extra.map Prod.fst) :
    ownersOk (upsert_documents st p docs src extra sp ids ts).1 := by
  obtain ⟨hidx, hcache⟩ := hok
  by_cases h : split_documents sp docs = []
  · rw [upsert_unchanged_of_no_chunks h]
    exact ⟨hidx, hcache⟩
  · simp only [upsert_documents, h, if_false]
    constructor
    · intro r hr
      rcases mem_indexUpsert hr with h' | h'
      · exact hidx r h'
      · rcases List.mem_map.mp h' with ⟨idmd, hidmd, rfl⟩
        rcases mem_upsertPayload hidmd with ⟨i, chunk, rfl⟩
        simpa using dictGet?_chunkMetadata_personId p src chunk ts i extra hextra
    · intro pe hpe e he
      rcases mem_setA hpe with h' | h'
      · subst h'
        rcases List.mem_append.mp he with h'' | h''
        · cases hc : lookupA st.keywordCache p with
          | none => simp [cacheGet, hc] at h''
          | some entries =>
              simp only [cacheGet, hc, Option.getD_some] at h''
              exact hcache (p, entries) (lookupA_mem hc) e h''
        · rcases List.mem_map.mp h'' with ⟨idmd, _, rfl⟩
          rfl
      · exact hcache pe h' e he

theorem ownersOk_delete {st : EngineState} (hok : ownersOk st)
    (p s : String) : ownersOk (delete_by_source st p s).1 := by
  obtain ⟨hidx, hcache⟩ := hok
  constructor
  · intro r hr
    rw [delete_index_eq] at hr
    exact hidx r (List.mem_filter.mp hr).1
  · intro pe hpe e he
    revert hpe
    unfold delete_by_source
    cases hc : lookupA st.keywordCache p with
    | none => exact fun hpe => hcache pe hpe e he
    | some entries =>
        intro hpe
        simp only at hpe
        rcases mem_setA hpe with h' | h'
        · cases h'
          exact hcache (p, entries) (lookupA_mem hc) e (List.mem_filter.mp he).1
        · exact hcache pe h' e he

theorem search_owner {st : EngineState} (hok : ownersOk st)
    (p q : String) (k : Nat) (minScore : ℚ) (fb : Bool) (sim : String → ℚ)
    (r : SearchResult) (hr : r ∈ search st p q k minScore fb sim) :
    r.owner = p := by
  obtain ⟨hidx, hcache⟩ := hok
  by_cases hv : vectorResults (indexQuery st.indexRecords p k sim) minScore = []
  · cases fb with
    | true =>
        rw [search_eq_fallback hv] at hr
        rcases mem_keyword_search hr with ⟨se, hse, rfl⟩
        have h1 := (mem_scoredEntries hse).1
        cases hc : lookupA st.keywordCache p with
        | none => simp [cacheGet, hc] at h1
        | some entries =>
            simp only [cacheGet, hc, Option.getD_some] at h1
            exact hcache (p, entries) (lookupA_mem hc) se.2 h1
    | false =>
        rw [search_eq_nil hv] at hr
        simp at hr
  · rw [search_eq_of_vector_ne_nil hv] at hr
    have h1 := mem_sortDesc.mp (List.take_subset _ _ hr)
    rcases mem_vectorResults h1 with ⟨m, hm, _, rfl⟩
    rcases mem_indexQuery hm with ⟨rec, hrec, _, how, hper⟩
    have hinv := hidx rec hrec
    rw [hper] at hinv
    have : rec.owner = p := by
      injection hinv with h'
      cases h' 
      rfl
    simpa [mkVectorResult, how] using this

end VectorStore

namespace VectorStore

/-! ## Small auxiliary facts -/

theorem scoredEntries_nil_tokens (entries : List CacheEntry) :
    scoredEntries [] entries = [] := by
  induction entries with
  | nil => rfl
  | cons e rest ih =>
      simp only [scoredEntries, List.filterMap_cons] at ih ⊢
      by_cases h : pyLower (MVal.str e.text) = "" <;>
        simp [h, overlapCount, ih]

theorem split_documents_all_empty {sp : String → List String}
    {docs : List String} (h : ∀ d ∈ docs, d = "") :
    split_documents sp docs = [] := by
  induction docs with
  | nil => rfl
  | cons d rest ih =>
      have hd : pyStrip d = "" := by rw [h d (List.mem_cons_self _ _)]; rfl
      simp [split_documents, hd,
        ih (fun x hx => h x (List.mem_cons_of_mem _ hx))]

/-! ## Concrete sample data for witnesses and counterexamples -/

def pOne : String := "p1"

def pTwo : String := "p2"

def sManual : String := "manual"

/-- A splitter standing in for the external recursive character splitter on a
    short document: one chunk holding the whole text. -/
def idSplit : String → List String := fun d => [d]

/-- A fresh-id stream for single-chunk examples. -/
def oneId : Nat → String := fun _ => "v1"

/-- A similarity function scoring every stored vector 1. -/
def simOne : String → ℚ := fun _ => 1

/-- A caller-supplied `extra_metadata` overriding the reserved `person_id`. -/
def spoofExtra : Meta := [(kPersonId, MVal.s pOne)]

/-- The engine state after `upsert_documents("p2", ["secret plans"], "manual",
    extra_metadata={"person_id": "p1"})` on a fresh engine. -/
def spoofState : EngineState :=
  (upsert_documents emptyState pTwo ["secret plans"] sManual spoofExtra
    idSplit oneId "t0").1

/-- The engine state after a plain `upsert_documents("p1", ["hello world"],
    "manual")` on a fresh engine. -/
def cleanState : EngineState :=
  (upsert_documents emptyState pOne ["hello world"] sManual [] idSplit oneId
    "t0").1

/-- `cleanState` with a second person's content added under the same source
    label. -/
def twoState : EngineState :=
  (upsert_documents cleanState pTwo ["other notes"] sManual [] idSplit
    (fun _ => "v2") "t1").1

end VectorStore

namespace VectorStore

/-! ## Claim C1 -/

/-- C1 (counterexample): calling `upsert_documents` for person `p2` with
    `extra_metadata = {"person_id": "p1"}` stores `"p1"` — the caller's value,
    not the engine-computed `"p2"` — under the reserved key `person_id`, both
    in the index record and in the mirrored cache entry, so the reserved keys
    do not take precedence over caller-supplied `extra_metadata`. -/
theorem upsert_reserved_key_overridden :
    (spoofState.indexRecords.map (fun r => dictGet? r.metadata kPersonId))
      = [some (MVal.s pOne)] ∧
    (spoofState.keywordCache.map (fun pe =>
        pe.2.map (fun e => dictGet? e.metadata kPersonId)))
      = [[some (MVal.s pOne)]] ∧
    pOne ≠ pTwo := by decide

/-- C1 (amended): in `upsert_documents`, caller-supplied `extra_metadata`
    takes precedence over the engine-computed reserved fields on every key
    collision: whenever `extra_metadata` (unique keys, as a Python dict) binds
    `k` to `v`, every chunk of the call stores `v` under `k`; the keyword
    cache mirrors exactly these stored metadata dicts. -/
theorem upsert_extra_metadata_wins (st : EngineState) (p : String)
    (docs : List String) (src : String) (extra : Meta)
    (sp : String → List String) (ids : Nat → String) (ts : String)
    (k : String) (v : MVal) (hnd : (extra.map Prod.fst).Nodup)
    (hk : dictGet? extra k = some v) :
    (∀ idmd ∈ upsertPayload p src (split_documents sp docs) ts extra ids,
      dictGet? idmd.2 k = some v) ∧
    cacheGet (upsert_documents st p docs src extra sp ids ts).1.keywordCache p
      = cacheGet st.keywordCache p
        ++ (upsertPayload p src (split_documents sp docs) ts extra ids).map
            (mkCacheEntry p) := by
  constructor
  · intro idmd hidmd
    rcases mem_upsertPayload hidmd with ⟨i, chunk, rfl⟩
    exact dictGet?_chunkMetadata_of_extra p src chunk ts i extra k v hnd hk
  · exact upsert_cacheGet_self st p docs src extra sp ids ts

/-- Concrete instance of the amended C1. -/
theorem upsert_extra_metadata_wins_witness :
    (∀ idmd ∈ upsertPayload pTwo sManual
        (split_documents idSplit ["secret plans"]) "t0" spoofExtra oneId,
      dictGet? idmd.2 kPersonId = some (MVal.s pOne)) ∧
    cacheGet (upsert_documents emptyState pTwo ["secret plans"] sManual
        spoofExtra idSplit oneId "t0").1.keywordCache pTwo
      = cacheGet emptyState.keywordCache pTwo
        ++ (upsertPayload pTwo sManual
            (split_documents idSplit ["secret plans"]) "t0" spoofExtra
            oneId).map (mkCacheEntry pTwo) :=
  upsert_extra_metadata_wins emptyState pTwo ["secret plans"] sManual
    spoofExtra idSplit oneId "t0" kPersonId (MVal.s pOne) (by decide)
    (by decide)

/-! ## Claim C2 -/

/-- C2: the keyword fallback path is taken exactly when the min-score-filtered
    vector result list is empty and the hybrid fallback is enabled, and the
    returned fallback is `_keyword_search`'s result, to which `min_score` is
    never applied; with an empty list and fallback disabled `search` returns
    the empty list; with a non-empty list the fallback is not taken. -/
theorem search_fallback_iff (st : EngineState) (p q : String) (k : Nat)
    (minScore : ℚ) (fb : Bool) (sim : String → ℚ) :
    (vectorResults (indexQuery st.indexRecords p k sim) minScore = [] →
      fb = true →
      search st p q k minScore fb sim = keyword_search st p q k) ∧
    (vectorResults (indexQuery st.indexRecords p k sim) minScore = [] →
      fb = false → search st p q k minScore fb sim = []) ∧
    (vectorResults (indexQuery st.indexRecords p k sim) minScore ≠ [] →
      search st p q k minScore fb sim
        = (sortDesc SearchResult.score
            (vectorResults (indexQuery st.indexRecords p k sim)
              minScore)).take k) := by
  refine ⟨fun h hfb => ?_, fun h hfb => ?_,
    fun h => search_eq_of_vector_ne_nil h⟩
  · subst hfb; exact search_eq_fallback h
  · subst hfb; exact search_eq_nil h

/-- Concrete instance of C2: with every vector match filtered out by a high
    `min_score`, `search` returns the keyword fallback result. -/
theorem search_fallback_iff_witness :
    search cleanState pOne "hello" 5 2 true simOne
      = keyword_search cleanState pOne "hello" 5 :=
  (search_fallback_iff cleanState pOne "hello" 5 2 true simOne).1
    (by decide) rfl

/-! ## Claim C3 -/

/-- C3: `_keyword_search` computes exactly the specified fallback: the query
    is lowercased and whitespace-split into a token set; each cached chunk of
    the person is scored `overlap / len(tokens)` where `overlap` counts the
    query tokens occurring as substrings of the lowercased chunk text;
    zero-overlap chunks are discarded (the source's extra empty-text skip
    discards only zero-overlap chunks, as the first conjunct states); the
    highest-scoring `top_k` survivors are returned in descending score order,
    each tagged `keyword_fallback`. -/
theorem keyword_search_spec (st : EngineState) (p q : String) (k : Nat) :
    scoredEntries (queryTokens q) (cacheGet st.keywordCache p)
      = ((cacheGet st.keywordCache p).filter (fun e =>
          decide (0 < overlapCount (queryTokens q)
            (pyLower (MVal.str e.text))))).map
          (fun e => ((overlapCount (queryTokens q)
              (pyLower (MVal.str e.text)) : ℚ)
            / ((queryTokens q).length : ℚ), e)) ∧
    ∃ l : List (ℚ × CacheEntry),
      l.Perm (scoredEntries (queryTokens q) (cacheGet st.keywordCache p)) ∧
      List.Sorted (keyDesc Prod.fst) l ∧
      keyword_search st p q k = (l.take k).map mkKeywordResult ∧
      (∀ r ∈ keyword_search st p q k,
        r.retrieval_mode = modeKeywordFallback) ∧
      (keyword_search st p q k).length ≤ k := by
  refine ⟨scoredEntries_queryTokens_eq q _,
    sortDesc Prod.fst (scoredEntries (queryTokens q)
      (cacheGet st.keywordCache p)),
    sortDesc_perm _ _, sortDesc_sorted _ _, ?_, ?_, ?_⟩
  · by_cases ht : queryTokens q = []
    · simp [keyword_search, ht, scoredEntries_nil_tokens, sortDesc]
    · simp [keyword_search, ht]
  · intro r hr
    rcases mem_keyword_search hr with ⟨se, _, rfl⟩
    rfl
  · by_cases ht : queryTokens q = []
    · simp [keyword_search, ht]
    · simp [keyword_search, ht, List.length_take]

/-- Concrete instance of C3. -/
theorem keyword_search_spec_witness :
    scoredEntries (queryTokens "hello") (cacheGet cleanState.keywordCache pOne)
      = ((cacheGet cleanState.keywordCache pOne).filter (fun e =>
          decide (0 < overlapCount (queryTokens "hello")
            (pyLower (MVal.str e.text))))).map
          (fun e => ((overlapCount (queryTokens "hello")
              (pyLower (MVal.str e.text)) : ℚ)
            / ((queryTokens "hello").length : ℚ), e)) ∧
    ∃ l : List (ℚ × CacheEntry),
      l.Perm (scoredEntries (queryTokens "hello")
        (cacheGet cleanState.keywordCache pOne)) ∧
      List.Sorted (keyDesc Prod.fst) l ∧
      keyword_search cleanState pOne "hello" 2 = (l.take 2).map mkKeywordResult ∧
      (∀ r ∈ keyword_search cleanState pOne "hello" 2,
        r.retrieval_mode = modeKeywordFallback) ∧
      (keyword_search cleanState pOne "hello" 2).length ≤ 2 :=
  keyword_search_spec cleanState pOne "hello" 2

end VectorStore

namespace VectorStore

/-! ## Claim C4 -/

/-- C4: on the vector path, `search` keeps exactly the adapter matches whose
    score is at least `min_score` (dropping every match strictly below it),
    and when any survive it returns them sorted in descending score order,
    truncated to at most `top_k` entries, each tagged `"vector"`. -/
theorem search_vector_path (st : EngineState) (p q : String) (k : Nat)
    (minScore : ℚ) (fb : Bool) (sim : String → ℚ) :
    vectorResults (indexQuery st.indexRecords p k sim) minScore
      = ((indexQuery st.indexRecords p k sim).filter
          (fun m => decide (minScore ≤ m.score))).map mkVectorResult ∧
    (vectorResults (indexQuery st.indexRecords p k sim) minScore ≠ [] →
      search st p q k minScore fb sim
        = (sortDesc SearchResult.score
            (vectorResults (indexQuery st.indexRecords p k sim)
              minScore)).take k ∧
      List.Sorted (keyDesc SearchResult.score)
        (search st p q k minScore fb sim) ∧
      (search st p q k minScore fb sim).length ≤ k ∧
      ∀ r ∈ search st p q k minScore fb sim,
        r.retrieval_mode = modeVector) := by
  refine ⟨vectorResults_eq_filter _ _, fun h => ?_⟩
  have heq := @search_eq_of_vector_ne_nil st p q k minScore fb sim h
  refine ⟨heq, ?_, ?_, ?_⟩
  · rw [heq]; exact sorted_take_sortDesc _ _ _
  · rw [heq]; exact length_take_sortDesc_le _ _ _
  · intro r hr
    rw [heq] at hr
    rcases mem_vectorResults (mem_sortDesc.mp (List.take_subset _ _ hr)) with
      ⟨m, _, _, rfl⟩
    rfl

/-- Concrete instance of C4's non-empty vector path. -/
theorem search_vector_path_witness :
    search cleanState pOne "hello" 5 0 true simOne
      = (sortDesc SearchResult.score
          (vectorResults (indexQuery cleanState.indexRecords pOne 5 simOne)
            0)).take 5 ∧
    List.Sorted (keyDesc SearchResult.score)
      (search cleanState pOne "hello" 5 0 true simOne) ∧
    (search cleanState pOne "hello" 5 0 true simOne).length ≤ 5 ∧
    ∀ r ∈ search cleanState pOne "hello" 5 0 true simOne,
      r.retrieval_mode = modeVector :=
  (search_vector_path cleanState pOne "hello" 5 0 true simOne).2 (by decide)

/-! ## Claim C5 -/

/-- C5: `delete_by_source` returns the maximum of the two independently
    observed counts — the tracked-id count of the `(person, source)` group and
    the number of cache entries removed for that group — and removes from the
    person's cache exactly the entries whose cached source equals the given
    source. -/
theorem delete_by_source_spec (st : EngineState) (p s : String) :
    (delete_by_source st p s).2
      = max (svGet st.sourceVectorIds (p, s)).length
          ((cacheGet st.keywordCache p).countP
            (fun e => decide (e.source = MVal.s s))) ∧
    cacheGet (delete_by_source st p s).1.keywordCache p
      = (cacheGet st.keywordCache p).filter
          (fun e => decide (e.source ≠ MVal.s s)) ∧
    ∀ e ∈ cacheGet (delete_by_source st p s).1.keywordCache p,
      e.source ≠ MVal.s s := by
  refine ⟨delete_count_eq st p s, delete_cacheGet_self st p s, ?_⟩
  intro e he
  rw [delete_cacheGet_self st p s] at he
  have h2 := (List.mem_filter.mp he).2
  simpa using h2

/-- Concrete instance of C5. -/
theorem delete_by_source_spec_witness :
    (delete_by_source cleanState pOne sManual).2
      = max (svGet cleanState.sourceVectorIds (pOne, sManual)).length
          ((cacheGet cleanState.keywordCache pOne).countP
            (fun e => decide (e.source = MVal.s sManual))) ∧
    cacheGet (delete_by_source cleanState pOne sManual).1.keywordCache pOne
      = (cacheGet cleanState.keywordCache pOne).filter
          (fun e => decide (e.source ≠ MVal.s sManual)) ∧
    ∀ e ∈ cacheGet (delete_by_source cleanState pOne
        sManual).1.keywordCache pOne,
      e.source ≠ MVal.s sManual :=
  delete_by_source_spec cleanState pOne sManual

/-! ## Claim C6 -/

/-- C6: `upsert_documents` performs no upsert, touches no cache and returns 0
    whenever chunking yields zero chunks; a whitespace-only document
    contributes zero chunks; in particular upserting a list of empty strings
    leaves the state untouched and returns 0. -/
theorem upsert_empty_docs (st : EngineState) (p : String)
    (docs : List String) (src : String) (extra : Meta)
    (sp : String → List String) (ids : Nat → String) (ts : String) :
    (split_documents sp docs = [] →
      upsert_documents st p docs src extra sp ids ts = (st, 0)) ∧
    (∀ d rest, pyStrip d = "" →
      split_documents sp (d :: rest) = split_documents sp rest) ∧
    ((∀ d ∈ docs, d = "") →
      upsert_documents st p docs src extra sp ids ts = (st, 0)) := by
  refine ⟨fun h => upsert_unchanged_of_no_chunks h,
    fun d rest h => by simp [split_documents, h],
    fun h => upsert_unchanged_of_no_chunks (split_documents_all_empty h)⟩

/-- Concrete instance of C6: upserting `[""]` returns 0 and changes nothing. -/
theorem upsert_empty_docs_witness :
    upsert_documents emptyState pTwo [""] "empty" [] idSplit oneId "t0"
      = (emptyState, 0) :=
  (upsert_empty_docs emptyState pTwo [""] "empty" [] idSplit oneId "t0").2.2
    (by decide)

end VectorStore

namespace VectorStore

/-! ## Claim C7 -/

/-- C7 (counterexample): person scoping is breakable through the metadata
    merge: after `upsert_documents("p2", ["secret plans"], "manual",
    extra_metadata={"person_id": "p1"})`, a search scoped to `p1` returns the
    chunk indexed for `p2` (the ghost `owner` field records the indexing
    person), so a search scoped to one person can return content indexed for
    another. -/
theorem search_cross_person_leak :
    ((search spoofState pOne "anything" 5 0 true simOne).map
        (fun r => (r.owner, r.text)) = [(pTwo, "secret plans")]) ∧
    pTwo ≠ pOne := by decide

/-- C7 (amended): person scoping holds provided no caller overrides the
    reserved `person_id` key through `extra_metadata`: the provenance
    invariants hold on a fresh engine, are preserved by `upsert_documents`
    whose `extra_metadata` lacks a `person_id` key and by `delete_by_source`,
    and under them every match returned by a search scoped to `p` — on the
    vector path and on the keyword fallback path alike — was indexed by an
    upsert for `p`. -/
theorem search_person_scoped :
    ownersOk emptyState ∧
    (∀ (st : EngineState) (p : String) (docs : List String) (src : String)
        (extra : Meta) (sp : String → List String) (ids : Nat → String)
        (ts : String), ownersOk st → kPersonId ∉ extra.map Prod.fst →
      ownersOk (upsert_documents st p docs src extra sp ids ts).1) ∧
    (∀ (st : EngineState) (p s : String), ownersOk st →
      ownersOk (delete_by_source st p s).1) ∧
    (∀ (st : EngineState) (p q : String) (k : Nat) (minScore : ℚ) (fb : Bool)
        (sim : String → ℚ), ownersOk st →
      ∀ r ∈ search st p q k minScore fb sim, r.owner = p) :=
  ⟨ownersOk_empty,
   fun _ p docs src extra sp ids ts hok hex =>
     ownersOk_upsert hok p docs src extra sp ids ts hex,
   fun _ p s hok => ownersOk_delete hok p s,
   fun _ p q k minScore fb sim hok r hr =>
     search_owner hok p q k minScore fb sim r hr⟩

/-- Concrete instance of the amended C7 on a state built by a spoof-free
    upsert. -/
theorem search_person_scoped_witness :
    ownersOk twoState ∧
    ∀ r ∈ search twoState pOne "hello" 5 0 true simOne, r.owner = pOne :=
  ⟨by decide,
   fun r hr => search_person_scoped.2.2.2 twoState pOne "hello" 5 0 true
     simOne (by decide) r hr⟩

/-! ## Claim C8 -/

/-- C8: running `delete_by_source` twice in a row for the same person and
    source yields 0 from the second call (hence a value at most the first
    call's). -/
theorem delete_by_source_twice (st : EngineState) (p s : String) :
    (delete_by_source (delete_by_source st p s).1 p s).2 = 0 ∧
    (delete_by_source (delete_by_source st p s).1 p s).2
      ≤ (delete_by_source st p s).2 := by
  have h0 : (delete_by_source (delete_by_source st p s).1 p s).2 = 0 := by
    rw [delete_count_eq]
    have h1 : svGet (delete_by_source st p s).1.sourceVectorIds (p, s)
        = [] := by
      unfold svGet
      rw [delete_sv_self]
      rfl
    have h2 : ((cacheGet (delete_by_source st p s).1.keywordCache p).countP
        (fun e => decide (e.source = MVal.s s))) = 0 := by
      rw [delete_cacheGet_self, List.countP_eq_zero]
      intro e he
      have h3 := (List.mem_filter.mp he).2
      simp only [decide_eq_true_eq] at h3 ⊢
      exact h3
    rw [h1, h2]
    rfl
  exact ⟨h0, h0 ▸ Nat.zero_le _⟩

/-! ## Claim C9 -/

/-- C9: within one `search` call all returned matches carry the same
    provenance tag: either every result is tagged `"vector"` or every result
    is tagged `"keyword_fallback"`. -/
theorem search_uniform_retrieval_mode (st : EngineState) (p q : String)
    (k : Nat) (minScore : ℚ) (fb : Bool) (sim : String → ℚ) :
    (∀ r ∈ search st p q k minScore fb sim,
      r.retrieval_mode = modeVector) ∨
    (∀ r ∈ search st p q k minScore fb sim,
      r.retrieval_mode = modeKeywordFallback) := by
  by_cases hv : vectorResults (indexQuery st.indexRecords p k sim)
      minScore = []
  · right
    cases fb with
    | false =>
        rw [search_eq_nil hv]
        intro r hr
        simp at hr
    | true =>
        rw [search_eq_fallback hv]
        intro r hr
        rcases mem_keyword_search hr with ⟨se, _, rfl⟩
        rfl
  · left
    rw [search_eq_of_vector_ne_nil hv]
    intro r hr
    rcases mem_vectorResults (mem_sortDesc.mp (List.take_subset _ _ hr)) with
      ⟨m, _, _, rfl⟩
    rfl

/-- Concrete instance of C9. -/
theorem search_uniform_retrieval_mode_witness :
    (∀ r ∈ search cleanState pOne "hello" 5 2 true simOne,
      r.retrieval_mode = modeVector) ∨
    (∀ r ∈ search cleanState pOne "hello" 5 2 true simOne,
      r.retrieval_mode = modeKeywordFallback) :=
  search_uniform_retrieval_mode cleanState pOne "hello" 5 2 true simOne

/-! ## Claim C10 -/

/-- C10: `delete_by_source(p, s)` leaves the cache list of every person other
    than `p` unchanged, keeps exactly (and in order) the entries of `p` whose
    cached source differs from `s`, leaves the tracked id set of every group
    other than `(p, s)` unchanged, and keeps every index record not matching
    the `(p, s)` metadata filter. -/
theorem delete_by_source_frame (st : EngineState) (p s : String) :
    (∀ p', p' ≠ p →
      lookupA (delete_by_source st p s).1.keywordCache p'
        = lookupA st.keywordCache p') ∧
    cacheGet (delete_by_source st p s).1.keywordCache p
      = (cacheGet st.keywordCache p).filter
          (fun e => decide (e.source ≠ MVal.s s)) ∧
    (∀ key, key ≠ (p, s) →
      lookupA (delete_by_source st p s).1.sourceVectorIds key
        = lookupA st.sourceVectorIds key) ∧
    (∀ r ∈ st.indexRecords,
      ¬ (dictGet? r.metadata kPersonId = some (.s p) ∧
         dictGet? r.metadata kSource = some (.s s)) →
      r ∈ (delete_by_source st p s).1.indexRecords) := by
  refine ⟨fun p' h => delete_cache_frame st p s p' h,
    delete_cacheGet_self st p s,
    fun key h => delete_sv_frame st p s key h,
    fun r hr hne => ?_⟩
  rw [delete_index_eq]
  refine List.mem_filter.mpr ⟨hr, ?_⟩
  simpa only [decide_eq_true_eq] using hne

/-- Concrete instance of C10: deleting `p1`'s group leaves `p2`'s cache list
    untouched. -/
theorem delete_by_source_frame_witness :
    lookupA (delete_by_source twoState pOne sManual).1.keywordCache pTwo
      = lookupA twoState.keywordCache pTwo :=
  (delete_by_source_frame twoState pOne sManual).1 pTwo (by decide)

end VectorStore
